import Mathlib

/-!
Shallow embedding of the Code-Canvas note-taking extension
(`src/extension.ts`).  The in-memory note store is a JavaScript object
mapping string keys to string note texts; we model it as an association
list in insertion order, with JavaScript property-assignment semantics.
Host-editor values (the active editor, input-box results, visible
editors) are passed to the command models as explicit parameters.
-/

namespace CodeCanvas

/-- The global `notes` object (`extension.ts` line 6): string keys to
string note texts, kept in insertion order like a JS object with
non-index keys. -/
abbrev NotesMap := List (String × String)

/-- JavaScript property assignment `obj[k] = v`: if the key is present
its value is updated in place (enumeration order keeps the original
position), otherwise the new binding is appended.  All keys built by the
extension contain `::`, so none is an integer-like key that JS would
reorder. -/
def jsObjInsert (m : NotesMap) (k v : String) : NotesMap :=
  if m.any (fun p => p.1 == k) then
    m.map (fun p => if p.1 = k then (k, v) else p)
  else m ++ [(k, v)]

/-- JavaScript property read `obj[k]`: the value if present, else
`undefined` (modelled as `none`). -/
def jsGet (m : NotesMap) (k : String) : Option String :=
  (m.find? (fun p => p.1 == k)).map (fun p => p.2)

/-- Number of bindings a map has for key `k`. -/
def countKey (m : NotesMap) (k : String) : Nat :=
  (m.filter (fun p => p.1 == k)).length

/-- Deleting a key from a map (used to compare a stored entry with an
absent one). -/
def eraseKey (m : NotesMap) (k : String) : NotesMap :=
  m.filter (fun p => p.1 != k)

/-- The decimal digit character for `n < 10`. -/
def digitChar (n : Nat) : Char := Char.ofNat (48 + n)

/-- Fuel-driven digit extraction; with `fuel ≥ n` the fallback arm is
never reached, so this computes the plain most-significant-first decimal
digits. -/
def natToCharsAux : Nat → Nat → List Char
  | 0, n => [digitChar (n % 10)]
  | fuel + 1, n =>
    if n < 10 then [digitChar n]
    else natToCharsAux fuel (n / 10) ++ [digitChar (n % 10)]

/-- Decimal rendering of a non-negative integer, no leading zeros: the
JavaScript `ToString` applied to the line numbers interpolated by
`` `${filePath}::${line}` `` (`extension.ts` lines 79, 99, 123). -/
def natToChars (n : Nat) : List Char := natToCharsAux n n

/-- Decimal rendering as a `String`. -/
def natRepr (n : Nat) : String := ⟨natToChars n⟩

/-- Key construction `` `${filePath}::${line}` `` (`extension.ts` lines
79, 99, 123). -/
def encodeKey (filePath : String) (line : Nat) : String :=
  filePath ++ "::" ++ natRepr line

/-- The store-level upsert both commands perform: `notes[noteKey] =
text` for the synthesized key. -/
def upsert (notes : NotesMap) (filePath : String) (line : Nat) (text : String) :
    NotesMap :=
  jsObjInsert notes (encodeKey filePath line) text

/-- Decimal digit test, modelling the digit class used by
`parseInt(·, 10)` (code points 48–57). -/
def isDigitChar (c : Char) : Bool := 48 ≤ c.toNat && c.toNat ≤ 57

/-- JavaScript `StrWhiteSpaceChar` as far as ASCII goes: space, tab,
line feed, carriage return, vertical tab, form feed (code points 32, 9,
10, 13, 11, 12).  `parseInt` skips these before reading the number. -/
def jsSpace (c : Char) : Bool :=
  c.toNat == 32 || c.toNat == 9 || c.toNat == 10 || c.toNat == 13 ||
    c.toNat == 11 || c.toNat == 12

/-- Value of a digit string read most-significant first. -/
def digitsToNat (l : List Char) : Nat :=
  l.foldl (fun a c => 10 * a + (c.toNat - 48)) 0

/-- JavaScript `parseInt(s, 10)` (`extension.ts` line 174): skip leading
whitespace, read an optional sign, then the longest prefix of decimal
digits, ignoring anything after it; `NaN` (here `none`) when no digit is
found. -/
def jsParseInt (s : List Char) : Option Int :=
  let s1 := s.dropWhile jsSpace
  let sign : Int := if s1.head? = some '-' then -1 else 1
  let s2 := if s1.head? = some '-' ∨ s1.head? = some '+' then s1.tail else s1
  let ds := s2.takeWhile isDigitChar
  if ds.isEmpty then none else some (sign * (digitsToNat ds : Int))

/-- `key.split('::')` on the character list: JS `split` with a non-empty
string separator cuts at each leftmost non-overlapping occurrence of the
separator, here the literal `::`. -/
def splitOnColons : List Char → List (List Char)
  | [] => [[]]
  | ':' :: ':' :: rest => [] :: splitOnColons rest
  | c :: rest =>
    match splitOnColons rest with
    | s :: ss => (c :: s) :: ss
    | [] => [[c]]

/-- `key.split('::')` (`extension.ts` line 169). -/
def decodeParts (key : String) : List String :=
  (splitOnColons key.data).map (fun l => (⟨l⟩ : String))

/-- The `filePath` component bound by
`const [filePath, lineStr] = key.split('::')`. -/
def decodeFilePath (key : String) : String := (decodeParts key).headD ""

/-- The `lineStr` component: the second segment, `undefined` (`none`)
when the key has no separator. -/
def decodeLineStr (key : String) : Option String := (decodeParts key)[1]?

/-- `parseInt(lineStr, 10)` on the decoded line portion; `none` is `NaN`
(also covering `parseInt(undefined, 10)`, since the string
`"undefined"` starts with no digit). -/
def decodeLine (key : String) : Option Int :=
  (decodeLineStr key).bind (fun s => jsParseInt s.data)

/-- `filePath.replace(/\\/g, '/')` (`extension.ts` lines 170–171),
replacing every backslash character. -/
def normalizeSlashes (s : String) : String :=
  ⟨s.data.map (fun c => if c = '\\' then '/' else c)⟩

/-- `filePath.replace(/\\/g, '/').toLowerCase()`; lowercasing is modelled
with `Char.toLower`, which agrees with JS on the ASCII paths involved. -/
def normalizePath (s : String) : String :=
  ⟨(normalizeSlashes s).data.map Char.toLower⟩

/-- An open editor view as the renderer and commands see it: its file
system path, its line count, and the cursor line used by the add-note
command. -/
structure Editor where
  fsPath : String
  lineCount : Nat
  cursorLine : Nat
deriving DecidableEq

/-- One gutter decoration as pushed by `updateDecorations`
(`extension.ts` lines 182–185): the anchored line, the note text shown
in the hover, and the original (non-normalized) file path round-tripped
into the edit link. -/
structure Decoration where
  line : Int
  note : String
  filePath : String
deriving DecidableEq

/-- Loop body of `updateDecorations` for one stored entry
(`extension.ts` lines 168–187): decode the key, normalize both paths and
compare, parse the line with `parseInt`, check `!isNaN(line) && line >= 0
&& line < editor.document.lineCount`, and emit one decoration on
success. -/
def decorationFor (editor : Editor) (key note : String) : Option Decoration :=
  if normalizePath (decodeFilePath key) = normalizePath editor.fsPath then
    match decodeLine key with
    | some line =>
      if 0 ≤ line ∧ line < (editor.lineCount : Int) then
        some { line := line, note := note, filePath := decodeFilePath key }
      else none
    | none => none
  else none

/-- `updateDecorations` (`extension.ts` lines 165–192): iterate
`Object.entries(notes)` in insertion order and collect the decorations
of the matching entries; the resulting list replaces the view's whole
decoration set. -/
def computeDecorations (notes : NotesMap) (editor : Editor) : List Decoration :=
  notes.filterMap (fun p => decorationFor editor p.1 p.2)

/-- The hover preview payload (`extension.ts` lines 126–132): the note
text and the `(filePath, line)` pair encoded into the edit-command
link. -/
structure HoverPayload where
  note : String
  filePath : String
  line : Nat
deriving DecidableEq

/-- `provideHover` (`extension.ts` lines 121–135): look the key up and
test the value for truthiness (`if (notes[noteKey])`) — a missing entry
(`undefined`) and an empty string are both falsy, so neither produces a
hover. -/
def provideHover (notes : NotesMap) (fsPath : String) (line : Nat) :
    Option HoverPayload :=
  let noteKey := encodeKey fsPath line
  match jsGet notes noteKey with
  | some t => if t = "" then none else some { note := t, filePath := fsPath, line := line }
  | none => none

/-- Observable outcome of one run of the add-note command: the resulting
store, whether `saveNotes` ran, which editor `updateDecorations` was
called on, and the information message shown. -/
structure AddOutcome where
  notes : NotesMap
  saved : Bool
  rerendered : Option Editor
  message : Option String
deriving DecidableEq

/-- The `code-canvas.addNote` command handler (`extension.ts` lines
71–89).  `activeEditor` is `vscode.window.activeTextEditor`; `input` is
the settled value of the `showInputBox` promise, `none` when dismissed.
The handler acts only when `if (note)` holds, i.e. the input is defined
and non-empty. -/
def addNoteCmd (activeEditor : Option Editor) (input : Option String)
    (notes : NotesMap) : AddOutcome :=
  match activeEditor with
  | none => ⟨notes, false, none, none⟩
  | some editor =>
    let noteKey := encodeKey editor.fsPath editor.cursorLine
    match input with
    | some note =>
      if note = "" then ⟨notes, false, none, none⟩
      else ⟨jsObjInsert notes noteKey note, true, some editor, some "Note added!"⟩
    | none => ⟨notes, false, none, none⟩

/-- The argument object of `code-canvas.editNote`; either field may be
`undefined` in a programmatic invocation. -/
structure EditArgs where
  filePath : Option String
  line : Option Nat
deriving DecidableEq

/-- Observable outcome of one run of the edit-note command. -/
structure EditOutcome where
  notes : NotesMap
  saved : Bool
  rerendered : Option Editor
  errorShown : Bool
  message : Option String
deriving DecidableEq

/-- The `code-canvas.editNote` command handler (`extension.ts` lines
92–115).  The guard `!args || args.filePath === undefined || args.line
=== undefined` shows an error and returns.  Otherwise `input` is the
settled `showInputBox` value; when it is defined (including the empty
string) the note is stored, saved, and the re-render target is
`visibleTextEditors.find(e => e.document.uri.fsPath === filePath)` —
exact string equality, no normalization. -/
def editNoteCmd (args : Option EditArgs) (input : Option String)
    (visibleEditors : List Editor) (notes : NotesMap) : EditOutcome :=
  match args with
  | none => ⟨notes, false, none, true, none⟩
  | some a =>
    match a.filePath, a.line with
    | some filePath, some line =>
      let noteKey := encodeKey filePath line
      match input with
      | some newNote =>
        ⟨jsObjInsert notes noteKey newNote, true,
          visibleEditors.find? (fun e => e.fsPath == filePath), false,
          some "Note updated!"⟩
      | none => ⟨notes, false, none, false, none⟩
    | _, _ => ⟨notes, false, none, true, none⟩

/-- Lowercase hexadecimal digit character for `n < 16`, as
`JSON.stringify` emits in `\u00XX` escapes. -/
def hexDigitChar (n : Nat) : Char :=
  if n < 10 then Char.ofNat (48 + n) else Char.ofNat (87 + n)

/-- `QuoteJSONString` escaping of one character, as performed by
`JSON.stringify` (`extension.ts` line 54): quote and backslash get a
backslash escape, the named control characters get their short escapes,
any other control character becomes `\u00XX`, and everything else passes
through unchanged.  Lean strings hold Unicode scalar values, so the
lone-surrogate case of the JS algorithm cannot arise. -/
def escapeChar (c : Char) : List Char :=
  if c = '"' then ['\\', '"']
  else if c = '\\' then ['\\', '\\']
  else if c = '\x08' then ['\\', 'b']
  else if c = '\t' then ['\\', 't']
  else if c = '\n' then ['\\', 'n']
  else if c = '\x0c' then ['\\', 'f']
  else if c = '\r' then ['\\', 'r']
  else if c.toNat < 32 then
    ['\\', 'u', '0', '0', hexDigitChar (c.toNat / 16), hexDigitChar (c.toNat % 16)]
  else [c]

/-- Escape a whole character sequence. -/
def escapeString : List Char → List Char
  | [] => []
  | c :: t => escapeChar c ++ escapeString t

/-- A JSON string literal: `"` + escaped body + `"`. -/
def quoteString (s : String) : List Char :=
  '"' :: (escapeString s.data ++ ['"'])

/-- One pretty-printed member line of `JSON.stringify(notes, null, 2)`:
two spaces of indentation, the quoted key, a colon and a space, the
quoted value. -/
def serializeEntry (p : String × String) : List Char :=
  ' ' :: ' ' :: (quoteString p.1 ++ ':' :: ' ' :: quoteString p.2)

/-- The member lines joined by `,\n`. -/
def serializeEntries : NotesMap → List Char
  | [] => []
  | [p] => serializeEntry p
  | p :: q :: rest => serializeEntry p ++ ',' :: '\n' :: serializeEntries (q :: rest)

/-- `JSON.stringify(notes, null, 2)` (`extension.ts` line 54): `{}` for
the empty object, otherwise the members between `{\n` and `\n}`. -/
def serializeNotes (m : NotesMap) : String :=
  match m with
  | [] => "{}"
  | _ => ⟨'{' :: '\n' :: (serializeEntries m ++ '\n' :: '}' :: [])⟩

/-- JSON whitespace (space, tab, line feed, carriage return), skipped by
`JSON.parse` between tokens. -/
def jsonWs (c : Char) : Bool :=
  c == ' ' || c == '\t' || c == '\n' || c == '\r'

/-- Value of one hexadecimal digit character, either case. -/
def hexVal (c : Char) : Option Nat :=
  if 48 ≤ c.toNat ∧ c.toNat ≤ 57 then some (c.toNat - 48)
  else if 97 ≤ c.toNat ∧ c.toNat ≤ 102 then some (c.toNat - 87)
  else if 65 ≤ c.toNat ∧ c.toNat ≤ 70 then some (c.toNat - 55)
  else none

/-- The character a short JSON escape `\x` denotes, `none` for an
invalid escape (a JSON syntax error). -/
def unescapeChar (e : Char) : Option Char :=
  if e = '"' then some '"'
  else if e = '\\' then some '\\'
  else if e = '/' then some '/'
  else if e = 'b' then some '\x08'
  else if e = 'f' then some '\x0c'
  else if e = 'n' then some '\n'
  else if e = 'r' then some '\r'
  else if e = 't' then some '\t'
  else none

/-- JSON string-literal body parser, entered just after the opening
quote: returns the decoded content and the input after the closing
quote, `none` on any syntax error (unterminated literal, invalid escape,
raw control character).  In `\uXXXX`, `Char.ofNat` stands in for the JS
code unit; the surrogate values a Lean string cannot hold never arise
from documents this program writes. -/
def parseStringBody : List Char → Option (List Char × List Char)
  | [] => none
  | c :: rest =>
    if c = '"' then some ([], rest)
    else if c = '\\' then
      match rest with
      | [] => none
      | e :: r =>
        if e = 'u' then
          match r with
          | h1 :: h2 :: h3 :: h4 :: r2 =>
            match hexVal h1, hexVal h2, hexVal h3, hexVal h4, parseStringBody r2 with
            | some a, some b, some c2, some d, some q =>
              some (Char.ofNat (4096 * a + 256 * b + 16 * c2 + d) :: q.1, q.2)
            | _, _, _, _, _ => none
          | _ => none
        else
          match unescapeChar e, parseStringBody r with
          | some u, some q => some (u :: q.1, q.2)
          | _, _ => none
    else if c.toNat < 32 then none
    else
      match parseStringBody rest with
      | some q => some (c :: q.1, q.2)
      | none => none

/-- Member-list parser, entered where a key's string literal must start:
parses `"key" : "value"` pairs separated by commas until the closing
brace, returning the members in document order and the input after the
brace.  The fuel only bounds the recursion; one unit per member suffices
since every member consumes at least one character. -/
def parseMembers : Nat → List Char → Option (List (String × String) × List Char)
  | 0, _ => none
  | fuel + 1, s =>
    if s.head? = some '"' then
      match parseStringBody s.tail with
      | some (key, s2) =>
        let s3 := s2.dropWhile jsonWs
        if s3.head? = some ':' then
          let s4 := s3.tail.dropWhile jsonWs
          if s4.head? = some '"' then
            match parseStringBody s4.tail with
            | some (val, s5) =>
              let s6 := s5.dropWhile jsonWs
              if s6.head? = some ',' then
                match parseMembers fuel (s6.tail.dropWhile jsonWs) with
                | some (rest, s7) => some ((⟨key⟩, ⟨val⟩) :: rest, s7)
                | none => none
              else if s6.head? = some '}' then some ([(⟨key⟩, ⟨val⟩)], s6.tail)
              else none
            | none => none
          else none
        else none
      | none => none
    else none

/-- Building the result object from the parsed members with JS property
assignment (a duplicated key keeps its first position, last value). -/
def buildObj (members : List (String × String)) : NotesMap :=
  members.foldl (fun o p => jsObjInsert o p.1 p.2) []

/-- `JSON.parse(data)` (`extension.ts` line 31) restricted to the
documents this extension reads and writes: an object whose values are
strings.  `none` models the `SyntaxError` thrown on malformed input;
other well-formed JSON shapes (arrays, numbers, nested objects) are
outside the flat string-object format and are not modelled. -/
def parseNotes (s : String) : Option NotesMap :=
  let t := s.data.dropWhile jsonWs
  if t.head? = some '{' then
    let u := t.tail.dropWhile jsonWs
    if u.head? = some '}' then
      if (u.tail.dropWhile jsonWs).isEmpty then some [] else none
    else
      match parseMembers s.data.length u with
      | some (members, rest) =>
        if (rest.dropWhile jsonWs).isEmpty then some (buildObj members) else none
      | none => none
  else none

/-- `saveNotes` (`extension.ts` lines 42–59) writes
`JSON.stringify(notes, null, 2)`; the file content it produces. -/
def saveNotes (notes : NotesMap) : String := serializeNotes notes

/-- `loadNotes` (`extension.ts` lines 24–39).  `file` is the disk state:
`none` when `fs.existsSync` is false (the map is left as it was — empty
at startup), `some data` when the file exists.  A `JSON.parse` failure
is caught by the surrounding `try`/`catch` and only logged, leaving the
map at its prior state.  Every path of the function is total: load never
raises. -/
def loadNotes (file : Option String) (notes : NotesMap) : NotesMap :=
  match file with
  | none => notes
  | some data =>
    match parseNotes data with
    | some parsed => parsed
    | none => notes

/-! ### Store lemmas -/

theorem countKey_eq_countP (m : NotesMap) (k : String) :
    countKey m k = m.countP (fun p => p.1 == k) := by
  simp [countKey, List.countP_eq_length_filter]

theorem countKey_insert_presentAux (m : NotesMap) (k v : String) :
    countKey (m.map (fun p => if p.1 = k then (k, v) else p)) k = countKey m k := by
  simp only [countKey_eq_countP, List.countP_map]
  refine List.countP_congr (fun p _ => ?_)
  by_cases h : p.1 = k <;> simp [h]

theorem countKey_le_one_of_nodup (m : NotesMap) (k : String)
    (h : (m.map Prod.fst).Nodup) : countKey m k ≤ 1 := by
  induction m with
  | nil => simp [countKey]
  | cons p t ih =>
    simp only [List.map_cons, List.nodup_cons] at h
    by_cases hp : p.1 = k
    · have ht : countKey t k = 0 := by
        simp only [countKey_eq_countP]
        refine List.countP_eq_zero.2 (fun q hq => ?_)
        simp only [beq_iff_eq]
        intro hqk
        exact h.1 (hp ▸ hqk ▸ List.mem_map_of_mem Prod.fst hq)
      rw [countKey_eq_countP] at ht ⊢
      simp [List.countP_cons, hp, ht]
    · simpa [countKey_eq_countP, List.countP_cons, hp] using ih h.2

theorem countKey_pos_of_any (m : NotesMap) (k : String)
    (h : m.any (fun p => p.1 == k) = true) : 0 < countKey m k := by
  rw [countKey_eq_countP, List.countP_pos_iff]
  simpa using h

theorem countKey_zero_of_not_any (m : NotesMap) (k : String)
    (h : ¬m.any (fun p => p.1 == k) = true) : countKey m k = 0 := by
  rw [Bool.not_eq_true, List.any_eq_false] at h
  rw [countKey_eq_countP, List.countP_eq_zero]
  exact h

theorem jsGet_insert (m : NotesMap) (k v : String) :
    jsGet (jsObjInsert m k v) k = some v := by
  unfold jsObjInsert
  split
  · rename_i h
    induction m with
    | nil => simp at h
    | cons p t ih =>
      by_cases hp : p.1 = k
      · simp [jsGet, List.find?_cons, hp]
      · simp only [List.any_cons, Bool.or_eq_true, beq_iff_eq] at h
        rcases h with h | h
        · exact absurd h hp
        · simpa [jsGet, List.find?_cons, hp] using ih h
  · rename_i h
    rw [Bool.not_eq_true] at h
    simp only [List.any_eq_false, beq_iff_eq] at h
    induction m with
    | nil => simp [jsGet]
    | cons p t ih =>
      have hp : ¬p.1 = k := h p (List.mem_cons_self p t)
      simpa [jsGet, List.find?_cons, hp] using
        ih (fun q hq => h q (List.mem_cons_of_mem p hq))

theorem countKey_insert (m : NotesMap) (k v : String)
    (h : countKey m k ≤ 1) : countKey (jsObjInsert m k v) k = 1 := by
  unfold jsObjInsert
  split
  · rename_i ha
    have h1 := countKey_pos_of_any m k ha
    rw [countKey_insert_presentAux]
    omega
  · rename_i ha
    have h0 := countKey_zero_of_not_any m k ha
    rw [countKey_eq_countP, List.countP_append]
    rw [countKey_eq_countP] at h0
    simp [h0, List.countP_cons]

theorem countKey_insert_self (m : NotesMap) (k v : String) :
    countKey (jsObjInsert (jsObjInsert m k v) k v) k =
      countKey (jsObjInsert m k v) k := by
  have ha : (jsObjInsert m k v).any (fun p => p.1 == k) = true := by
    rw [List.any_eq_true]
    refine ⟨(k, v), ?_, by simp⟩
    unfold jsObjInsert
    split
    · rename_i h
      rw [List.any_eq_true] at h
      obtain ⟨p, hp, hpk⟩ := h
      simp only [beq_iff_eq] at hpk
      exact List.mem_map.2 ⟨p, hp, by simp [hpk]⟩
    · simp
  unfold jsObjInsert
  rw [if_pos]
  · exact countKey_insert_presentAux _ k v
  · exact ha

/-! ### Decimal rendering and `parseInt` lemmas -/

theorem digitChar_toNat : ∀ m, m < 10 → (digitChar m).toNat = 48 + m := by decide

theorem digitChar_isDigit : ∀ m, m < 10 → isDigitChar (digitChar m) = true := by decide

theorem digitsToNat_append (l : List Char) (c : Char) :
    digitsToNat (l ++ [c]) = 10 * digitsToNat l + (c.toNat - 48) := by
  simp [digitsToNat, List.foldl_append]

theorem natToCharsAux_spec :
    ∀ fuel n, n ≤ fuel →
      natToCharsAux fuel n ≠ [] ∧
      (∀ c ∈ natToCharsAux fuel n, isDigitChar c = true) ∧
      digitsToNat (natToCharsAux fuel n) = n := by
  intro fuel
  induction fuel with
  | zero =>
    intro n hn
    have : n = 0 := by omega
    subst this
    refine ⟨by simp [natToCharsAux], ?_, by decide⟩
    intro c hc
    simp only [natToCharsAux, List.mem_singleton] at hc
    subst hc
    decide
  | succ f ih =>
    intro n hn
    by_cases h10 : n < 10
    · refine ⟨by simp [natToCharsAux, h10], ?_, ?_⟩
      · intro c hc
        simp only [natToCharsAux, if_pos h10, List.mem_singleton] at hc
        subst hc
        exact digitChar_isDigit n h10
      · simp only [natToCharsAux, if_pos h10, digitsToNat, List.foldl]
        rw [digitChar_toNat n h10]
        omega
    · have hrec := ih (n / 10) (by omega)
      refine ⟨by simp [natToCharsAux, h10], ?_, ?_⟩
      · intro c hc
        simp only [natToCharsAux, if_neg h10, List.mem_append, List.mem_singleton] at hc
        rcases hc with hc | hc
        · exact hrec.2.1 c hc
        · subst hc
          exact digitChar_isDigit (n % 10) (by omega)
      · simp only [natToCharsAux, if_neg h10, digitsToNat_append, hrec.2.2]
        rw [digitChar_toNat (n % 10) (by omega)]
        omega

theorem isDigitChar_bounds {c : Char} (h : isDigitChar c = true) :
    48 ≤ c.toNat ∧ c.toNat ≤ 57 := by
  simpa [isDigitChar] using h

theorem digit_not_space {c : Char} (h : isDigitChar c = true) : jsSpace c = false := by
  have hb := isDigitChar_bounds h
  simp only [jsSpace, Bool.or_eq_false_iff, beq_eq_false_iff_ne, ne_eq]
  omega

theorem digit_not_sign {c : Char} (h : isDigitChar c = true) : c ≠ '-' ∧ c ≠ '+' := by
  have hb := isDigitChar_bounds h
  constructor <;> (rintro rfl; revert hb; decide)

theorem jsParseInt_digits (l : List Char) (h1 : l ≠ [])
    (h2 : ∀ c ∈ l, isDigitChar c = true) :
    jsParseInt l = some ((digitsToNat l : Int)) := by
  obtain ⟨c, r, rfl⟩ : ∃ c r, l = c :: r := by
    cases l with
    | nil => exact absurd rfl h1
    | cons c r => exact ⟨c, r, rfl⟩
  have hc := h2 c (List.mem_cons_self c r)
  have hdrop : (c :: r).dropWhile jsSpace = c :: r := by
    rw [List.dropWhile_cons, if_neg (by simp [digit_not_space hc])]
  have hsign := digit_not_sign hc
  have htake : (c :: r).takeWhile isDigitChar = c :: r :=
    List.takeWhile_eq_self_iff.2 (by simpa using h2)
  simp only [jsParseInt, hdrop, List.head?_cons, Option.some.injEq]
  rw [if_neg hsign.1, if_neg (not_or.2 ⟨hsign.1, hsign.2⟩), htake]
  simp [h1]

theorem jsParseInt_natToChars (n : Nat) :
    jsParseInt (natToChars n) = some (n : Int) := by
  obtain ⟨hne, hdig, hval⟩ := natToCharsAux_spec n n le_rfl
  rw [natToChars, jsParseInt_digits _ hne hdig, hval]

theorem jsGet_erase (m : NotesMap) (k : String) :
    jsGet (eraseKey m k) k = none := by
  have hfind : (eraseKey m k).find? (fun p => p.1 == k) = none := by
    rw [List.find?_eq_none]
    intro p hp
    have := (List.mem_filter.1 hp).2
    simpa using this
  simp [jsGet, hfind]

/-! ### JSON round-trip lemmas -/

theorem hexVal_hexDigitChar : ∀ m, m < 16 → hexVal (hexDigitChar m) = some m := by decide

theorem parseStringBody_escape (l : List Char) (rest : List Char) :
    parseStringBody (escapeString l ++ ('"' :: rest)) = some (l, rest) := by
  induction l with
  | nil =>
    show parseStringBody ('"' :: rest) = some ([], rest)
    rw [parseStringBody.eq_def]
    simp
  | cons c t ih =>
    show parseStringBody ((escapeChar c ++ escapeString t) ++ ('"' :: rest)) = _
    rw [List.append_assoc]
    unfold escapeChar
    split_ifs with h1 h2 h3 h4 h5 h6 h7 h8
    · subst h1
      rw [parseStringBody.eq_def]
      simp [unescapeChar, ih]
    · subst h2
      rw [parseStringBody.eq_def]
      simp [unescapeChar, ih]
    · subst h3
      rw [parseStringBody.eq_def]
      simp [unescapeChar, ih]
    · subst h4
      rw [parseStringBody.eq_def]
      simp [unescapeChar, ih]
    · subst h5
      rw [parseStringBody.eq_def]
      simp [unescapeChar, ih]
    · subst h6
      rw [parseStringBody.eq_def]
      simp [unescapeChar, ih]
    · subst h7
      rw [parseStringBody.eq_def]
      simp [unescapeChar, ih]
    · have hdiv : c.toNat / 16 < 16 := by omega
      have hmod : c.toNat % 16 < 16 := by omega
      have harith : 16 * (c.toNat / 16) + c.toNat % 16 = c.toNat := by omega
      rw [parseStringBody.eq_def]
      simp [show hexVal '0' = some 0 by decide, hexVal_hexDigitChar _ hdiv,
        hexVal_hexDigitChar _ hmod, ih]
      rw [harith, Char.ofNat_toNat]
    · rw [parseStringBody.eq_def]
      simp [h1, h2, h8, ih]

theorem mk_data (s : String) : String.mk s.data = s := rfl

theorem parseMembers_serializeEntries :
    ∀ (m : NotesMap) (fuel : Nat), m ≠ [] → m.length ≤ fuel →
      parseMembers fuel ((serializeEntries m ++ ('\n' :: '}' :: [])).dropWhile jsonWs) =
        some (m, []) := by
  intro m
  induction m with
  | nil => intro fuel h hl; exact absurd rfl h
  | cons p m2 ih =>
    intro fuel hne hlen
    have hf : 1 ≤ fuel := by
      have h1 := hlen
      simp only [List.length_cons] at h1
      omega
    obtain ⟨f, rfl⟩ : ∃ f, fuel = f + 1 := ⟨fuel - 1, by omega⟩
    cases m2 with
    | nil =>
      simp [parseMembers, serializeEntries, serializeEntry, quoteString, jsonWs,
        List.dropWhile_cons, List.append_assoc, parseStringBody_escape, mk_data]
    | cons q m3 =>
      have hlen2 : (q :: m3).length ≤ f := by
        simp only [List.length_cons] at hlen ⊢
        omega
      have iha := ih f (by simp) hlen2
      simp only [serializeEntries, List.append_assoc] at iha ⊢
      simp [parseMembers, serializeEntry, quoteString, jsonWs,
        List.dropWhile_cons, List.append_assoc, parseStringBody_escape, mk_data, iha]

theorem jsObjInsert_of_not_mem (o : NotesMap) (k v : String)
    (h : ∀ p ∈ o, p.1 ≠ k) : jsObjInsert o k v = o ++ [(k, v)] := by
  unfold jsObjInsert
  rw [if_neg]
  rw [Bool.not_eq_true, List.any_eq_false]
  intro p hp
  simpa using h p hp

theorem buildObj_go : ∀ (m acc : NotesMap),
    ((acc ++ m).map Prod.fst).Nodup →
    m.foldl (fun o p => jsObjInsert o p.1 p.2) acc = acc ++ m := by
  intro m
  induction m with
  | nil => intro acc h; simp
  | cons p t ihm =>
    intro acc h
    have hnot : ∀ q ∈ acc, q.1 ≠ p.1 := by
      intro q hq heq
      have h1 : (acc.map Prod.fst).Disjoint ((p :: t).map Prod.fst) := by
        rw [List.map_append, List.nodup_append] at h
        exact h.2.2
      exact h1 (List.mem_map_of_mem Prod.fst hq)
        (heq ▸ List.mem_map_of_mem Prod.fst (List.mem_cons_self p t))
    rw [List.foldl_cons, jsObjInsert_of_not_mem acc p.1 p.2 hnot]
    have h2 : (((acc ++ [(p.1, p.2)]) ++ t).map Prod.fst).Nodup := by
      rw [List.append_assoc]
      simpa using h
    rw [ihm _ h2, List.append_assoc]
    simp

theorem buildObj_eq (m : NotesMap) (h : (m.map Prod.fst).Nodup) : buildObj m = m := by
  have hgo := buildObj_go m [] (by simpa using h)
  simpa [buildObj] using hgo

theorem one_le_length_serializeEntry (p : String × String) :
    1 ≤ (serializeEntry p).length := by
  simp only [serializeEntry, List.length_cons]
  omega

theorem length_serializeEntries :
    ∀ m : NotesMap, m.length ≤ (serializeEntries m).length := by
  intro m
  induction m with
  | nil => simp [serializeEntries]
  | cons p t iht =>
    cases t with
    | nil =>
      have h1 := one_le_length_serializeEntry p
      simpa [serializeEntries] using h1
    | cons q t2 =>
      have h1 := one_le_length_serializeEntry p
      have h2 := iht
      simp only [serializeEntries, List.length_append, List.length_cons] at h2 ⊢
      omega

theorem serializeEntries_cons_head (p : String × String) (t : NotesMap) (Z : List Char) :
    ((serializeEntries (p :: t) ++ Z).dropWhile jsonWs).head? = some '"' := by
  cases t <;>
    simp [serializeEntries, serializeEntry, quoteString, jsonWs, List.dropWhile_cons,
      List.append_assoc]

theorem parseNotes_serializeNotes (m : NotesMap) (h : (m.map Prod.fst).Nodup) :
    parseNotes (serializeNotes m) = some m := by
  cases m with
  | nil => rfl
  | cons p t =>
    have hmem := parseMembers_serializeEntries (p :: t)
      ((serializeEntries (p :: t)).length + 2 + 1 + 1)
      (by simp)
      (by
        have h1 := length_serializeEntries (p :: t)
        simp only [List.length_cons] at h1 ⊢
        omega)
    have hhead := serializeEntries_cons_head p t ('\n' :: '}' :: [])
    have hbuild := buildObj_eq _ h
    show parseNotes ⟨'{' :: '\n' :: (serializeEntries (p :: t) ++ '\n' :: '}' :: [])⟩ =
      some (p :: t)
    simp [parseNotes, List.dropWhile_cons, jsonWs, hmem, hhead, hbuild]

/-! ### Claim theorems -/

/-- C1.  Saving any map of string keys to string note texts —
serializing with `JSON.stringify(notes, null, 2)` and writing the file —
and loading the produced document back yields an in-memory map equal to
the original. -/
theorem save_load_roundtrip (m prior : NotesMap) (h : (m.map Prod.fst).Nodup) :
    loadNotes (some (saveNotes m)) prior = m := by
  have hp := parseNotes_serializeNotes m h
  unfold loadNotes saveNotes
  simp [hp]

/-- Witness for C1 at a concrete two-entry map whose keys and texts
exercise backslash, quote, and newline escaping. -/
theorem save_load_roundtrip_witness :
    loadNotes
        (some (saveNotes [("C:\\proj\\a.ts::3", "fix \"this\"\n"), ("b.ts::0", "x")])) [] =
      [("C:\\proj\\a.ts::3", "fix \"this\"\n"), ("b.ts::0", "x")] :=
  save_load_roundtrip [("C:\\proj\\a.ts::3", "fix \"this\"\n"), ("b.ts::0", "x")] []
    (by decide)

/-- C7.  Loading never raises: when the notes file does not exist the
in-memory map is left as it was (empty at startup), and when the file
exists but its contents fail to parse the failure is caught and the map
is left at its prior state.  (`loadNotes` is a total function, so no
execution path can raise.) -/
theorem load_missing_or_malformed (data : String) (prior : NotesMap)
    (h : parseNotes data = none) :
    loadNotes none prior = prior ∧ loadNotes (some data) prior = prior := by
  refine ⟨rfl, ?_⟩
  unfold loadNotes
  simp [h]

/-- Witness for C7 with a file whose contents are not JSON. -/
theorem load_missing_or_malformed_witness :
    loadNotes none [] = [] ∧ loadNotes (some "not json") [] = [] :=
  load_missing_or_malformed "not json" [] (by decide)

/-- C2.  For every file path `f`, line `n`, and texts `a` and `b`, an
upsert of `(f, n, a)` followed by an upsert of `(f, n, b)` leaves the
store with exactly one entry for the key built from `(f, n)`, whose text
is `b`: the second write unconditionally overwrites the first. -/
theorem upsert_last_write_wins (f : String) (n : Nat) (a b : String)
    (notes : NotesMap) (h : (notes.map Prod.fst).Nodup) :
    countKey (upsert (upsert notes f n a) f n b) (encodeKey f n) = 1 ∧
    jsGet (upsert (upsert notes f n a) f n b) (encodeKey f n) = some b := by
  have h1 : countKey (jsObjInsert notes (encodeKey f n) a) (encodeKey f n) = 1 :=
    countKey_insert _ _ _ (countKey_le_one_of_nodup _ _ h)
  refine ⟨?_, ?_⟩
  · unfold upsert
    exact countKey_insert _ _ _ (h1 ▸ le_rfl)
  · unfold upsert
    exact jsGet_insert _ _ _

/-- Witness for C2 at a concrete store. -/
theorem upsert_last_write_wins_witness :
    countKey (upsert (upsert [] "a.ts" 3 "a") "a.ts" 3 "b") (encodeKey "a.ts" 3) = 1 ∧
    jsGet (upsert (upsert [] "a.ts" 3 "a") "a.ts" 3 "b") (encodeKey "a.ts" 3) = some "b" :=
  upsert_last_write_wins "a.ts" 3 "a" "b" [] (by simp)

/-- C6.  Invoking the edit-note command with missing arguments — `args`
absent, or `filePath` undefined, or `line` undefined — shows the
invalid-arguments error, performs no mutation (no save, no re-render,
no confirmation), and leaves the store unchanged. -/
theorem edit_invalid_args (args : Option EditArgs) (input : Option String)
    (eds : List Editor) (notes : NotesMap)
    (h : args = none ∨ ∃ a, args = some a ∧ (a.filePath = none ∨ a.line = none)) :
    editNoteCmd args input eds notes = ⟨notes, false, none, true, none⟩ := by
  rcases h with rfl | ⟨a, rfl, ha⟩
  · simp [editNoteCmd]
  · obtain ⟨fp, ln⟩ := a
    rcases ha with rfl | rfl
    · cases ln <;> simp [editNoteCmd]
    · cases fp <;> simp [editNoteCmd]

/-- Witness for C6 with `filePath` undefined. -/
theorem edit_invalid_args_witness :
    editNoteCmd (some ⟨none, some 3⟩) (some "x") [] [] = ⟨[], false, none, true, none⟩ :=
  edit_invalid_args (some ⟨none, some 3⟩) (some "x") [] []
    (Or.inr ⟨⟨none, some 3⟩, rfl, Or.inl rfl⟩)

/-- C8.  The add-note command is a no-op (no upsert, no save, no
re-render, no confirmation) when the input box is cancelled or returns
the empty string; otherwise it upserts the entry, saves, re-renders the
current editor, and shows the confirmation. -/
theorem add_note_spec (ed : Editor) (input : Option String) (notes : NotesMap) :
    ((input = none ∨ input = some "") →
      addNoteCmd (some ed) input notes = ⟨notes, false, none, none⟩) ∧
    (∀ t, input = some t → t ≠ "" →
      addNoteCmd (some ed) input notes =
        ⟨upsert notes ed.fsPath ed.cursorLine t, true, some ed, some "Note added!"⟩) := by
  constructor
  · rintro (rfl | rfl) <;> simp [addNoteCmd]
  · rintro t rfl ht
    simp [addNoteCmd, ht, upsert]

/-- Witness for C8: a cancelled input box leaves everything unchanged. -/
theorem add_note_spec_witness :
    addNoteCmd (some ⟨"a.ts", 10, 2⟩) none [("a.ts::2", "old")] =
      ⟨[("a.ts::2", "old")], false, none, none⟩ :=
  (add_note_spec ⟨"a.ts", 10, 2⟩ none [("a.ts::2", "old")]).1 (Or.inl rfl)

/-- C9.  An entry whose stored text is the empty string produces no
hover payload — the hover path tests the looked-up value for JS
truthiness — so it behaves at the hover interface exactly like an absent
entry; and the store the edit-note command leaves behind after storing
`""` indeed hovers to nothing at that key. -/
theorem hover_empty_note (notes : NotesMap) (f : String) (n : Nat)
    (eds : List Editor) (h : jsGet notes (encodeKey f n) = some "") :
    provideHover notes f n = none ∧
    provideHover notes f n = provideHover (eraseKey notes (encodeKey f n)) f n ∧
    provideHover (editNoteCmd (some ⟨some f, some n⟩) (some "") eds notes).notes f n =
      none := by
  have h2 : provideHover notes f n = none := by simp [provideHover, h]
  have h3 : provideHover (eraseKey notes (encodeKey f n)) f n = none := by
    simp [provideHover, jsGet_erase]
  have h4 :
      provideHover (editNoteCmd (some ⟨some f, some n⟩) (some "") eds notes).notes f n =
        none := by
    simp only [editNoteCmd]
    simp [provideHover, jsGet_insert]
  exact ⟨h2, h2.trans h3.symm, h4⟩

/-- Witness for C9 at a concrete store holding an empty note. -/
theorem hover_empty_note_witness :
    provideHover [("a.ts::0", "")] "a.ts" 0 = none ∧
    provideHover [("a.ts::0", "")] "a.ts" 0 =
      provideHover (eraseKey [("a.ts::0", "")] (encodeKey "a.ts" 0)) "a.ts" 0 ∧
    provideHover
        (editNoteCmd (some ⟨some "a.ts", some 0⟩) (some "") [] [("a.ts::0", "")]).notes
        "a.ts" 0 = none :=
  hover_empty_note [("a.ts::0", "")] "a.ts" 0 [] (by decide)

/-- C3.  The renderer decides whether a stored entry belongs to a view
by normalizing both paths — backslashes to forward slashes, then
lowercasing — and comparing for equality: an entry whose normalized path
differs from the view's produces no decoration, while an entry keyed
with `C:\Proj\a.ts` decorates a view identified as `c:/proj/a.ts`. -/
theorem render_normalized_path_match (ed : Editor) (k t : String)
    (h : normalizePath (decodeFilePath k) ≠ normalizePath ed.fsPath) :
    decorationFor ed k t = none ∧
    computeDecorations [("C:\\Proj\\a.ts::0", "note")] ⟨"c:/proj/a.ts", 5, 0⟩ =
      [⟨0, "note", "C:\\Proj\\a.ts"⟩] := by
  refine ⟨?_, rfl⟩
  unfold decorationFor
  rw [if_neg h]

/-- Witness for C3: an entry for a different file yields no decoration. -/
theorem render_normalized_path_match_witness :
    decorationFor ⟨"b.ts", 5, 0⟩ "a.ts::1" "n" = none ∧
    computeDecorations [("C:\\Proj\\a.ts::0", "note")] ⟨"c:/proj/a.ts", 5, 0⟩ =
      [⟨0, "note", "C:\\Proj\\a.ts"⟩] :=
  render_normalized_path_match ⟨"b.ts", 5, 0⟩ "a.ts::1" "n" (by decide)

/-- C4 is refuted as stated: `parseInt(lineStr, 10)` ignores trailing
non-digit characters, so the stored key `a.ts::5x` — whose line portion
is not exactly a decimal integer — still decorates line 5 of a matching
view instead of being skipped. -/
theorem parse_trailing_garbage_decorates :
    decorationFor ⟨"a.ts", 10, 0⟩ "a.ts::5x" "note" = some ⟨5, "note", "a.ts"⟩ := rfl

/-- C4 (amended).  Decoding a line portion that is exactly the decimal
the program serialized recovers that integer; a line portion in which
`parseInt` finds no leading digits is `NaN` and the entry is silently
skipped during rendering.  (A line portion with a digit prefix followed
by garbage is accepted with the prefix's value, per the refutation
above.) -/
theorem parse_line_exact_or_skip (n : Nat) (ed : Editor) (k t : String) :
    (decodeLineStr k = some (natRepr n) → decodeLine k = some (n : Int)) ∧
    (decodeLine k = none → decorationFor ed k t = none) := by
  constructor
  · intro h
    unfold decodeLine
    rw [h]
    show jsParseInt (natRepr n).data = some (n : Int)
    exact jsParseInt_natToChars n
  · intro h
    unfold decorationFor
    rw [h]
    simp

/-- Witness for the amended C4: the exact decimal `12` decodes to `12`,
and a digit-free line portion is skipped. -/
theorem parse_line_exact_or_skip_witness :
    decodeLine "a.ts::12" = some (12 : Int) ∧
    decorationFor ⟨"a.ts", 99, 0⟩ "a.ts::x" "n" = none :=
  ⟨(parse_line_exact_or_skip 12 ⟨"a.ts", 99, 0⟩ "a.ts::12" "n").1 (by decide),
    (parse_line_exact_or_skip 12 ⟨"a.ts", 99, 0⟩ "a.ts::x" "n").2 (by decide)⟩

/-- C5.  Every decoration the renderer emits satisfies
`0 ≤ line < lineCount`, and an entry whose decoded line is at least the
view's line count (or does not decode at all) produces no decoration —
no error is raised, the entry is simply dropped. -/
theorem render_out_of_range_safe (ed : Editor) (notes : NotesMap) :
    (∀ d ∈ computeDecorations notes ed, 0 ≤ d.line ∧ d.line < (ed.lineCount : Int)) ∧
    (∀ k t, (∀ l, decodeLine k = some l → (ed.lineCount : Int) ≤ l) →
      decorationFor ed k t = none) := by
  constructor
  · intro d hd
    simp only [computeDecorations, List.mem_filterMap] at hd
    obtain ⟨p, _, hdf⟩ := hd
    unfold decorationFor at hdf
    split at hdf
    · split at hdf
      · split at hdf
        · rename_i hrange
          rw [Option.some_inj] at hdf
          subst hdf
          exact hrange
        · exact absurd hdf (by simp)
      · exact absurd hdf (by simp)
    · exact absurd hdf (by simp)
  · intro k t h
    unfold decorationFor
    split
    · cases hdl : decodeLine k with
      | none => rfl
      | some l =>
        have hl := h l hdl
        simp only []
        rw [if_neg (by omega)]
    · rfl

/-- Witness for C5: line 7 on a 3-line view yields no decoration. -/
theorem render_out_of_range_safe_witness :
    decorationFor ⟨"a.ts", 3, 0⟩ "a.ts::7" "n" = none :=
  (render_out_of_range_safe ⟨"a.ts", 3, 0⟩ []).2 "a.ts::7" "n" (by
    intro l hl
    have h7 : decodeLine "a.ts::7" = some 7 := rfl
    rw [h7, Option.some_inj] at hl
    show (3 : Int) ≤ l
    omega)

/-- C10.  After a successful edit-note mutation the re-render target is
chosen by exact, case-sensitive equality on `fsPath`: when no visible
editor's path is exactly equal to the invocation's `filePath`, no
re-render happens, while the mutation and the save still occur. -/
theorem edit_rerender_exact (f : String) (n : Nat) (t : String)
    (eds : List Editor) (notes : NotesMap) (h : ∀ e ∈ eds, e.fsPath ≠ f) :
    editNoteCmd (some ⟨some f, some n⟩) (some t) eds notes =
      ⟨upsert notes f n t, true, none, false, some "Note updated!"⟩ := by
  have hfind : eds.find? (fun e => e.fsPath == f) = none := by
    rw [List.find?_eq_none]
    intro e he
    simpa using h e he
  simp [editNoteCmd, hfind, upsert]

/-- Witness for C10: the only visible editor differs from the
invocation path just by letter case — it matches under the renderer's
normalized comparison, yet is not re-rendered. -/
theorem edit_rerender_exact_witness :
    normalizePath "C:/PROJ/a.ts" = normalizePath "c:/proj/a.ts" ∧
    editNoteCmd (some ⟨some "c:/proj/a.ts", some 1⟩) (some "t")
        [⟨"C:/PROJ/a.ts", 9, 0⟩] [] =
      ⟨upsert [] "c:/proj/a.ts" 1 "t", true, none, false, some "Note updated!"⟩ :=
  ⟨by decide,
    edit_rerender_exact "c:/proj/a.ts" 1 "t" [⟨"C:/PROJ/a.ts", 9, 0⟩] [] (by decide)⟩

end CodeCanvas
